import Mathlib

/-!
# eks-jobs-cleaner: the job pruner and the namespace resolver of `cleaner.go`

A shallow embedding of `cleanup` (the per-namespace job pruner), of
`arrayContains`, and of the part of `main` that resolves the namespace list and
fans out over it.

Conventions of the embedding

* A Go `string` is a Lean `String` (a sequence of Unicode scalar values, i.e. a
  Go string holding valid UTF-8).
* A `*metav1.Time` is an `Option Int`: `none` is the `nil` pointer, `some u` a
  time whose `Unix()` value is `u` (seconds).
* The int32 counters `Status.Succeeded` and `Status.Failed` are `Int`s; the code
  only compares them with `1`.
* The threshold `days` (a Go `int`) is an `Int`. The calendar arithmetic of the
  standard library, `metav1.Now().AddDate(0, 0, -days).Unix()`, is a parameter
  `cutoffOf` of the embedding: it depends on the local zone of the process and
  on Go's wrapping integer arithmetic, and nothing proved here for all inputs
  assumes anything about it. The scenarios are evaluated on `utcCutoff`, the
  calendar of a process in UTC.
* The remote calls are the environment: the result of the job-list call is an
  argument, the clock is a function giving the reading of the `k`-th call of
  `metav1.Now()` made by the invocation, and the outcome of the `k`-th `Delete`
  call is a function of `k` and the job name.
-/

namespace EksJobsCleaner

/-! ## Data model -/

/-- The fields of `batchv1.JobStatus` the development speaks of: the counters
`Succeeded` and `Failed` and the two times, which `cleanup` reads, and the
counter `Active` of the pods still running, which `cleanup` never reads. -/
structure JobStatus where
  active : Int
  succeeded : Int
  failed : Int
  completionTime : Option Int
  startTime : Option Int
  deriving DecidableEq, Repr

/-- The fields of `batchv1.Job` the development speaks of. -/
structure Job where
  name : String
  status : JobStatus
  deriving DecidableEq, Repr

/-- The pair `(jobsList, err)` returned by `kc.BatchV1().Jobs(namespace).List`:
`items` is `jobsList.Items` and `err` tells whether `err != nil`. The clientset
always returns a non-nil `*JobList`. -/
structure ListResult where
  items : List Job
  err : Bool
  deriving DecidableEq, Repr

/-- The lines `cleanup` writes with `log.Println`. -/
inductive LogLine where
  | fetching (ns : String)
  | listFailed (ns : String)
  | listError
  | canDelete (count : Nat) (ns : String)
  | deleteFailed (jobName ns : String)
  | deleted (jobName ns : String)
  | noJobs (ns : String)
  deriving DecidableEq, Repr

/-! ## `cleanup`: the age test -/

/-- The closure `isValidTS` of `cleanup`, called on a non-nil `ts` whose `Unix()`
is `jobTS`; `now` is the `Unix()` value of the reading of the `metav1.Now()` call
this invocation of the closure makes, and `cutoffOf now days` stands for the
library expression `metav1.Now().AddDate(0, 0, -days).Unix()` at that reading. -/
def isValidTS (cutoffOf : Int → Int → Int) (days : Int) (now : Int) (jobTS : Int) : Bool :=
  let compareTS := cutoffOf now days
  if jobTS < compareTS then true else false

/-! ## `cleanup`: the selection loop -/

/-- The variables that live across the iterations of `for _, job := range
jobsList.Items`: the pointer `t` (declared before the loop), the slice
`deletableJobs`, and the number of `metav1.Now()` calls made so far. -/
structure LoopState where
  t : Option Int
  deletableJobs : List String
  nowCalls : Nat
  deriving DecidableEq, Repr

/-- The state at `var deletableJobs []string; var t *metav1.Time`. -/
def LoopState.init : LoopState := { t := none, deletableJobs := [], nowCalls := 0 }

/-- One iteration of the loop body (lines 178-188). -/
def loopBody (cutoffOf : Int → Int → Int) (clock : Nat → Int) (days : Int) (s : LoopState) (job : Job) : LoopState :=
  let t :=
    if job.status.succeeded = 1 then job.status.completionTime
    else if job.status.failed = 1 then job.status.startTime
    else s.t
  match t with
  | none => { s with t := t }
  | some ts =>
    if isValidTS cutoffOf days (clock s.nowCalls) ts then
      { t := t, deletableJobs := s.deletableJobs ++ [job.name], nowCalls := s.nowCalls + 1 }
    else
      { t := t, deletableJobs := s.deletableJobs, nowCalls := s.nowCalls + 1 }

/-- The loop `for _, job := range jobsList.Items` started in state `s`. -/
def selectLoop (cutoffOf : Int → Int → Int) (clock : Nat → Int) (days : Int) (s : LoopState) (items : List Job) : LoopState :=
  items.foldl (loopBody cutoffOf clock days) s

/-- The slice `deletableJobs` when the loop has finished. -/
def deletableJobs (cutoffOf : Int → Int → Int) (clock : Nat → Int) (days : Int) (items : List Job) : List String :=
  (selectLoop cutoffOf clock days LoopState.init items).deletableJobs

/-! ## `cleanup`: the delete loop -/

/-- The variables of `for _, jobName := range deletableJobs`: the `Delete` calls
issued so far (their job names, in order) and the log written so far. -/
structure DeleteState where
  deletes : List String
  log : List LogLine
  deriving DecidableEq, Repr

/-- One iteration of the delete loop (lines 194-201): the call is issued, and
its outcome only chooses the log line. -/
def deleteBody (deleteErr : Nat → String → Bool) (ns : String)
    (s : DeleteState) (jobName : String) : DeleteState :=
  let err := deleteErr s.deletes.length jobName
  { deletes := s.deletes ++ [jobName],
    log := s.log ++ [if err then LogLine.deleteFailed jobName ns
                     else LogLine.deleted jobName ns] }

/-- What one invocation of `cleanup` has done when it returns. -/
structure CleanupResult where
  log : List LogLine
  deletableJobs : List String
  deletes : List String
  wgDone : Bool
  deriving DecidableEq, Repr

/-- The function `cleanup(kc, namespace)`: `listed` is what the job-list call
returned, `clock k` the reading of the `k`-th `metav1.Now()` call, `deleteErr k n`
whether the `k`-th `Delete` call (for job `n`) returned an error, `days` the
global threshold. The deferred `wg.Done()` runs at return. -/
def cleanup (cutoffOf : Int → Int → Int) (clock : Nat → Int) (deleteErr : Nat → String → Bool) (days : Int)
    (ns : String) (listed : ListResult) : CleanupResult :=
  let log0 := [LogLine.fetching ns]
  let log1 := if listed.err then log0 ++ [LogLine.listFailed ns, LogLine.listError] else log0
  let deletable := deletableJobs cutoffOf clock days listed.items
  if deletable.length > 0 then
    let s0 : DeleteState :=
      { deletes := [], log := log1 ++ [LogLine.canDelete deletable.length ns] }
    let s := deletable.foldl (deleteBody deleteErr ns) s0
    { log := s.log, deletableJobs := deletable, deletes := s.deletes, wgDone := true }
  else
    { log := log1 ++ [LogLine.noJobs ns], deletableJobs := deletable, deletes := [],
      wgDone := true }

/-! ## Scenario data -/

/-- The library expression `tm.AddDate(0, 0, -days).Unix()` for a reading `tm`
with `tm.Unix() = now` in a process whose local zone is UTC, for a threshold
whose negation and day arithmetic do not wrap: the same wall-clock time `days`
days of 86400 seconds earlier. -/
def utcCutoff (now days : Int) : Int := now - 86400 * days

/-- A clock reading used by the scenarios (Unix seconds). -/
def scenarioNow : Int := 1700000000

/-- A job with one succeeded pod that completed `d` days before `scenarioNow`. -/
def succeededJob (name : String) (d : Int) : Job :=
  { name := name,
    status := { active := 0, succeeded := 1, failed := 0,
                completionTime := some (scenarioNow - 86400 * d),
                startTime := some (scenarioNow - 86400 * d - 60) } }

/-- A job with one failed pod and no pod left running that started `d` days
before `scenarioNow`. -/
def failedJob (name : String) (d : Int) : Job :=
  { name := name,
    status := { active := 0, succeeded := 0, failed := 1, completionTime := none,
                startTime := some (scenarioNow - 86400 * d) } }

/-- A job that is still running: one active pod, no counter set, started `d` days before
`scenarioNow`, no completion time. -/
def runningJob (name : String) (d : Int) : Job :=
  { name := name,
    status := { active := 1, succeeded := 0, failed := 0, completionTime := none,
                startTime := some (scenarioNow - 86400 * d) } }

/-- The job list of the spec's scenario, in the order A, B, C, D. -/
def scenarioJobs : List Job :=
  [succeededJob "A" 20, succeededJob "B" 5, failedJob "C" 30, runningJob "D" 1]

/-- A job with `n` succeeded pods (a job run with several completions) that
completed `d` days before `scenarioNow`. -/
def parallelJob (name : String) (n : Int) (d : Int) : Job :=
  { name := name,
    status := { active := 0, succeeded := n, failed := 0,
                completionTime := some (scenarioNow - 86400 * d),
                startTime := some (scenarioNow - 86400 * d - 60) } }

/-- A clock that advances by one second from one reading to the next. -/
def tickingClock (k : Nat) : Int := scenarioNow + (k : Int)

/-! ## `arrayContains` and the namespace resolution of `main` -/

/-- The constant `emptyString`. -/
def emptyString : String := ""

/-- The package variable `ignoreNamespaces`. -/
def ignoreNamespaces : List String := ["kube-system", "kube-public"]

/-- The function `arrayContains(arr, s)`. -/
def arrayContains : List String → String → Bool
  | [], _ => false
  | a :: arr, s => if a = s then true else arrayContains arr s

/-- The pieces of a character sequence between the occurrences of the
separator `sep`: one piece more than there are separators. -/
def splitOnChar (sep : Char) : List Char → List (List Char)
  | [] => [[]]
  | c :: cs =>
    if c = sep then [] :: splitOnChar sep cs
    else
      match splitOnChar sep cs with
      | [] => [[c]]
      | piece :: pieces => (c :: piece) :: pieces

/-- The library call `strings.Split(s, sep)` for a separator of one character. -/
def stringsSplit (s : String) (sep : Char) : List String :=
  (splitOnChar sep s.data).map String.mk

/-- The library predicate `unicode.IsSpace`: the code points with the Unicode
property White_Space. -/
def unicodeIsSpace (c : Char) : Bool :=
  let n := c.toNat
  (9 ≤ n && n ≤ 13) || n = 32 || n = 0x85 || n = 0xA0 || n = 0x1680 ||
  (0x2000 ≤ n && n ≤ 0x200A) || n = 0x2028 || n = 0x2029 || n = 0x202F ||
  n = 0x205F || n = 0x3000

/-- The library call `strings.TrimSpace(s)`: `s` without its leading and
trailing white space. -/
def stringsTrimSpace (s : String) : String :=
  String.mk ((s.data.dropWhile unicodeIsSpace).reverse.dropWhile unicodeIsSpace).reverse

/-- The slice `validNamespaces` of `main` (lines 249-253); `nsItems` are the
names `n.Name` of `ns.Items`, in order. -/
def validNamespaces (nsItems : List String) : List String :=
  nsItems.foldl
    (fun acc n => if !arrayContains ignoreNamespaces n then acc ++ [n] else acc) []

/-- The slice `namespaceList` of `main` (lines 255-264); `namespaces` is the
value of the flag of that name. -/
def namespaceList (nsItems : List String) (namespaces : String) : List String :=
  let valid := validNamespaces nsItems
  if namespaces ≠ emptyString then
    (stringsSplit namespaces ',').foldl
      (fun acc entry =>
        let entry := stringsTrimSpace entry
        if arrayContains valid entry then acc ++ [entry] else acc) []
  else
    [] ++ valid

/-- The lines `main` writes once the namespace list is resolved. -/
inductive MainLogLine where
  | cleaningUp (joined : String)
  | noMatching
  deriving DecidableEq, Repr

/-- What the fan-out of `main` has done when `wg.Wait()` is reached. -/
structure FanOut where
  log : List MainLogLine
  started : List String
  wgAdds : Nat
  deriving DecidableEq, Repr

/-- The fan-out of `main` (lines 265-275): `started` lists the namespaces of
the `go cleanup(kc, namespace)` statements executed, in order, and `wgAdds`
counts the `wg.Add(1)` calls. -/
def fanOut (namespaceList : List String) : FanOut :=
  if namespaceList.length > 0 then
    namespaceList.foldl
      (fun acc ns => { acc with started := acc.started ++ [ns], wgAdds := acc.wgAdds + 1 })
      { log := [MainLogLine.cleaningUp (String.intercalate "," namespaceList)],
        started := [], wgAdds := 0 }
  else
    { log := [MainLogLine.noMatching], started := [], wgAdds := 0 }

/-! ## The cluster between two passes -/

/-- The job names of the `deleted job` lines of a log: the `Delete` calls that
returned no error. -/
def deletedJobs : List LogLine → List String
  | [] => []
  | LogLine.deleted jobName _ :: rest => jobName :: deletedJobs rest
  | _ :: rest => deletedJobs rest

/-- The jobs of the namespace once a pass with result `r` is over: the listed
jobs, in order, without those whose `Delete` call succeeded. -/
def remainingJobs (items : List Job) (r : CleanupResult) : List Job :=
  items.filter (fun job => decide (job.name ∉ deletedJobs r.log))

/-! ## The selection loop as a recursion -/

/-- The value of `t` after the `if`/`else if` at the head of the loop body. -/
def carriedTime (t : Option Int) (job : Job) : Option Int :=
  if job.status.succeeded = 1 then job.status.completionTime
  else if job.status.failed = 1 then job.status.startTime
  else t

/-- The names the loop appends when it runs over `items` with the pointer `t`
and `k` clock readings already taken. -/
def selectedFrom (cutoffOf : Int → Int → Int) (clock : Nat → Int) (days : Int) : Option Int → Nat → List Job → List String
  | _, _, [] => []
  | t, k, job :: rest =>
    match carriedTime t job with
    | none => selectedFrom cutoffOf clock days none k rest
    | some ts =>
      (if isValidTS cutoffOf days (clock k) ts then [job.name] else []) ++
        selectedFrom cutoffOf clock days (some ts) (k + 1) rest

/-- The pointer `t` once the loop has run over `items`, started with the
pointer `t`. -/
def pointerAfter (t : Option Int) (items : List Job) : Option Int :=
  items.foldl carriedTime t

/-- The number of age tests (calls of `isValidTS`, each taking one clock
reading) the loop makes over `items`, started with the pointer `t`: one for each
job examined with a non-nil pointer. -/
def ageTestsIn : Option Int → List Job → Nat
  | _, [] => 0
  | t, job :: rest =>
    match carriedTime t job with
    | none => ageTestsIn none rest
    | some ts => 1 + ageTestsIn (some ts) rest

/-- A pointer value that passes the age test at no clock reading. -/
def NeverValid (cutoffOf : Int → Int → Int) (clock : Nat → Int) (days : Int) (t : Option Int) : Prop :=
  ∀ ts, t = some ts → ∀ k, isValidTS cutoffOf days (clock k) ts = false

/-! ## Lemmas on the selection loop -/

theorem loopBody_deletableJobs (cutoffOf : Int → Int → Int) (clock : Nat → Int) (days : Int) (s : LoopState) (job : Job) :
    loopBody cutoffOf clock days s job =
      match carriedTime s.t job with
      | none => { s with t := none }
      | some ts =>
        { t := some ts,
          deletableJobs :=
            s.deletableJobs ++ (if isValidTS cutoffOf days (clock s.nowCalls) ts then [job.name] else []),
          nowCalls := s.nowCalls + 1 } := by
  unfold loopBody carriedTime
  cases h : (if job.status.succeeded = 1 then job.status.completionTime
    else if job.status.failed = 1 then job.status.startTime else s.t) with
  | none => simp
  | some ts =>
    by_cases hv : isValidTS cutoffOf days (clock s.nowCalls) ts = true <;> simp [hv]

theorem selectLoop_deletableJobs (cutoffOf : Int → Int → Int) (clock : Nat → Int) (days : Int) (items : List Job) :
    ∀ s : LoopState, (selectLoop cutoffOf clock days s items).deletableJobs =
      s.deletableJobs ++ selectedFrom cutoffOf clock days s.t s.nowCalls items := by
  induction items with
  | nil => intro s; simp [selectLoop, selectedFrom]
  | cons job rest ih =>
    intro s
    have hstep : selectLoop cutoffOf clock days s (job :: rest) =
        selectLoop cutoffOf clock days (loopBody cutoffOf clock days s job) rest := by
      simp [selectLoop]
    rw [hstep, ih, loopBody_deletableJobs]
    cases h : carriedTime s.t job with
    | none => simp [selectedFrom, h]
    | some ts => simp [selectedFrom, h, List.append_assoc]

theorem deletableJobs_eq_selectedFrom (cutoffOf : Int → Int → Int) (clock : Nat → Int) (days : Int) (items : List Job) :
    deletableJobs cutoffOf clock days items = selectedFrom cutoffOf clock days none 0 items := by
  simp [deletableJobs, selectLoop_deletableJobs, LoopState.init]

theorem selectedFrom_sublist (cutoffOf : Int → Int → Int) (clock : Nat → Int) (days : Int) (items : List Job) :
    ∀ (t : Option Int) (k : Nat),
      List.Sublist (selectedFrom cutoffOf clock days t k items) (items.map Job.name) := by
  induction items with
  | nil => intro t k; simp [selectedFrom]
  | cons job rest ih =>
    intro t k
    unfold selectedFrom
    cases h : carriedTime t job with
    | none =>
      simp only [List.map_cons]
      exact List.Sublist.cons _ (ih none k)
    | some ts =>
      simp only [List.map_cons]
      by_cases hv : isValidTS cutoffOf days (clock k) ts = true
      · simp only [hv, if_true, List.singleton_append]
        exact List.Sublist.cons₂ _ (ih (some ts) (k + 1))
      · simp only [hv, if_false, List.nil_append, Bool.false_eq_true]
        exact List.Sublist.cons _ (ih (some ts) (k + 1))

theorem selectedFrom_mem_of_own (cutoffOf : Int → Int → Int) (clock : Nat → Int) (days : Int) (job : Job) (ts : Int)
    (hown : ∀ t, carriedTime t job = some ts)
    (hold : ∀ k, isValidTS cutoffOf days (clock k) ts = true) (items : List Job) :
    ∀ (t : Option Int) (k : Nat), job ∈ items →
      job.name ∈ selectedFrom cutoffOf clock days t k items := by
  induction items with
  | nil => intro t k h; simp at h
  | cons j rest ih =>
    intro t k h
    rcases List.mem_cons.mp h with hj | hj
    · subst hj
      unfold selectedFrom
      simp [hown t, hold k]
    · unfold selectedFrom
      cases hc : carriedTime t j with
      | none => exact ih none k hj
      | some u => exact List.mem_append_right _ (ih (some u) (k + 1) hj)

theorem selectedFrom_congr (cutoffOf : Int → Int → Int) (c1 c2 : Nat → Int) (days : Int) (items : List Job) :
    ∀ (t : Option Int) (k : Nat), (∀ i, k ≤ i → i < k + items.length → c1 i = c2 i) →
      selectedFrom cutoffOf c1 days t k items = selectedFrom cutoffOf c2 days t k items := by
  induction items with
  | nil => intro t k _; simp [selectedFrom]
  | cons j rest ih =>
    intro t k h
    unfold selectedFrom
    cases hc : carriedTime t j with
    | none =>
      exact ih none k (fun i h1 h2 => h i h1 (by simp only [List.length_cons]; omega))
    | some u =>
      have hk : c1 k = c2 k := h k (le_refl k) (by simp only [List.length_cons]; omega)
      have hrest := ih (some u) (k + 1)
        (fun i h1 h2 => h i (by omega) (by simp only [List.length_cons]; omega))
      simp only [hk, hrest]

theorem selectedFrom_eq_nil (cutoffOf : Int → Int → Int) (clock : Nat → Int) (days : Int) (items : List Job) :
    ∀ (t : Option Int) (k : Nat), NeverValid cutoffOf clock days t →
      (∀ job ∈ items, ∀ t1, NeverValid cutoffOf clock days t1 →
        NeverValid cutoffOf clock days (carriedTime t1 job)) →
      selectedFrom cutoffOf clock days t k items = [] := by
  induction items with
  | nil => intro t k _ _; simp [selectedFrom]
  | cons j rest ih =>
    intro t k ht hall
    have hj := hall j (List.mem_cons_self _ _) t ht
    have hrest : ∀ job ∈ rest, ∀ t1, NeverValid cutoffOf clock days t1 →
        NeverValid cutoffOf clock days (carriedTime t1 job) :=
      fun job hm => hall job (List.mem_cons_of_mem _ hm)
    unfold selectedFrom
    cases hc : carriedTime t j with
    | none => exact ih none k (by intro ts h; simp at h) hrest
    | some u =>
      rw [hc] at hj
      simp only [hj u rfl k, Bool.false_eq_true, if_false, List.nil_append]
      exact ih (some u) (k + 1) hj hrest

/-! ## Lemmas on the delete loop and on `cleanup` -/

theorem deleteLoop_deletes (deleteErr : Nat → String → Bool) (ns : String)
    (names : List String) :
    ∀ s : DeleteState,
      (names.foldl (deleteBody deleteErr ns) s).deletes = s.deletes ++ names := by
  induction names with
  | nil => intro s; simp
  | cons n rest ih =>
    intro s
    simp only [List.foldl_cons]
    rw [ih]
    simp [deleteBody]

theorem cleanup_deletableJobs (cutoffOf : Int → Int → Int) (clock : Nat → Int) (deleteErr : Nat → String → Bool)
    (days : Int) (ns : String) (listed : ListResult) :
    (cleanup cutoffOf clock deleteErr days ns listed).deletableJobs =
      deletableJobs cutoffOf clock days listed.items := by
  unfold cleanup
  by_cases h : (deletableJobs cutoffOf clock days listed.items).length > 0 <;> simp [h]

theorem cleanup_deletes (cutoffOf : Int → Int → Int) (clock : Nat → Int) (deleteErr : Nat → String → Bool)
    (days : Int) (ns : String) (listed : ListResult) :
    (cleanup cutoffOf clock deleteErr days ns listed).deletes =
      deletableJobs cutoffOf clock days listed.items := by
  unfold cleanup
  by_cases h : (deletableJobs cutoffOf clock days listed.items).length > 0
  · simp only [h, if_true]
    rw [deleteLoop_deletes]
    simp
  · simp only [h, if_false]
    have : (deletableJobs cutoffOf clock days listed.items).length = 0 := by omega
    exact (List.length_eq_zero.mp this).symm

theorem deletedJobs_append (l1 l2 : List LogLine) :
    deletedJobs (l1 ++ l2) = deletedJobs l1 ++ deletedJobs l2 := by
  induction l1 with
  | nil => simp [deletedJobs]
  | cons a rest ih => cases a <;> simp [deletedJobs, ih]

theorem deleteLoop_deletedJobs (deleteErr : Nat → String → Bool) (ns : String)
    (hok : ∀ k n, deleteErr k n = false) (names : List String) :
    ∀ s : DeleteState,
      deletedJobs (names.foldl (deleteBody deleteErr ns) s).log =
        deletedJobs s.log ++ names := by
  induction names with
  | nil => intro s; simp
  | cons n rest ih =>
    intro s
    simp only [List.foldl_cons]
    rw [ih]
    simp [deleteBody, hok, deletedJobs_append, deletedJobs]

theorem cleanup_deletedJobs (cutoffOf : Int → Int → Int) (clock : Nat → Int) (deleteErr : Nat → String → Bool)
    (days : Int) (ns : String) (listed : ListResult)
    (hok : ∀ k n, deleteErr k n = false) :
    deletedJobs (cleanup cutoffOf clock deleteErr days ns listed).log =
      deletableJobs cutoffOf clock days listed.items := by
  unfold cleanup
  by_cases h : (deletableJobs cutoffOf clock days listed.items).length > 0
  · simp only [h, if_true]
    rw [deleteLoop_deletedJobs deleteErr ns hok]
    cases listed.err <;> simp [deletedJobs_append, deletedJobs]
  · simp only [h, if_false]
    have h0 : (deletableJobs cutoffOf clock days listed.items).length = 0 := by omega
    rw [List.length_eq_zero.mp h0]
    cases listed.err <;> simp [deletedJobs_append, deletedJobs]

/-! ## The library models: `strings.Split` and `strings.TrimSpace`

The pieces of `splitOnChar` hold no separator and joined with the separator give
the input back; `stringsTrimSpace` removes white space at both ends and nothing
else. -/

theorem splitOnChar_ne_nil (sep : Char) (l : List Char) : splitOnChar sep l ≠ [] := by
  cases l with
  | nil => simp [splitOnChar]
  | cons c cs =>
    unfold splitOnChar
    by_cases h : c = sep
    · simp [h]
    · simp only [h, if_false]
      cases splitOnChar sep cs <;> simp

theorem splitOnChar_intercalate (sep : Char) (l : List Char) :
    List.intercalate [sep] (splitOnChar sep l) = l := by
  induction l with
  | nil => simp [splitOnChar, List.intercalate]
  | cons c cs ih =>
    unfold splitOnChar
    by_cases h : c = sep
    · simp only [h, if_true]
      have hne := splitOnChar_ne_nil sep cs
      cases hs : splitOnChar sep cs with
      | nil => exact absurd hs hne
      | cons p ps =>
        rw [hs] at ih
        simp only [List.intercalate, List.intersperse, List.flatten] at ih ⊢
        simp [ih]
    · simp only [h, if_false]
      cases hs : splitOnChar sep cs with
      | nil => exact absurd hs (splitOnChar_ne_nil sep cs)
      | cons p ps =>
        rw [hs] at ih
        cases ps with
        | nil => simpa [List.intercalate] using ih
        | cons q qs =>
          simp only [List.intercalate, List.intersperse, List.flatten] at ih ⊢
          simpa using ih

theorem splitOnChar_no_sep (sep : Char) (l : List Char) :
    ∀ piece ∈ splitOnChar sep l, sep ∉ piece := by
  induction l with
  | nil => simp [splitOnChar]
  | cons c cs ih =>
    unfold splitOnChar
    by_cases h : c = sep
    · simp only [h, if_true]
      intro piece hp
      rcases List.mem_cons.mp hp with hp | hp
      · simp [hp]
      · exact ih piece hp
    · simp only [h, if_false]
      cases hs : splitOnChar sep cs with
      | nil => simp [Ne.symm h]
      | cons p ps =>
        rw [hs] at ih
        intro piece hp
        rcases List.mem_cons.mp hp with hp | hp
        · rw [hp]
          have := ih p (List.mem_cons_self _ _)
          simp [Ne.symm h, this]
        · exact ih piece (List.mem_cons_of_mem _ hp)

theorem dropWhile_head_not {α : Type} (p : α → Bool) (l : List α) (c : α)
    (h : (l.dropWhile p).head? = some c) : p c = false := by
  induction l with
  | nil => simp at h
  | cons a rest ih =>
    by_cases ha : p a = true
    · rw [List.dropWhile_cons_of_pos ha] at h
      exact ih h
    · rw [List.dropWhile_cons_of_neg ha] at h
      simp at h
      subst h
      simpa using ha

theorem trim_decompose {α : Type} (p : α → Bool) (l : List α) :
    ∃ pre post, l = pre ++ ((l.dropWhile p).reverse.dropWhile p).reverse ++ post ∧
      (∀ c ∈ pre, p c = true) ∧ (∀ c ∈ post, p c = true) := by
  refine ⟨l.takeWhile p, ((l.dropWhile p).reverse.takeWhile p).reverse, ?_, ?_, ?_⟩
  · have h1 : l = l.takeWhile p ++ l.dropWhile p := (List.takeWhile_append_dropWhile p l).symm
    have h2 : (l.dropWhile p).reverse =
        (l.dropWhile p).reverse.takeWhile p ++ (l.dropWhile p).reverse.dropWhile p :=
      (List.takeWhile_append_dropWhile p _).symm
    have h3 : l.dropWhile p =
        ((l.dropWhile p).reverse.dropWhile p).reverse ++
          ((l.dropWhile p).reverse.takeWhile p).reverse := by
      rw [← List.reverse_append, ← h2, List.reverse_reverse]
    rw [List.append_assoc, ← h3]
    exact h1
  · intro c hc
    exact List.mem_takeWhile_imp hc
  · intro c hc
    exact List.mem_takeWhile_imp (List.mem_reverse.mp hc)

theorem trim_head_not {α : Type} (p : α → Bool) (l : List α) (c : α)
    (h : (((l.dropWhile p).reverse.dropWhile p).reverse).head? = some c) : p c = false := by
  have h2 : (l.dropWhile p).reverse =
      (l.dropWhile p).reverse.takeWhile p ++ (l.dropWhile p).reverse.dropWhile p :=
    (List.takeWhile_append_dropWhile p _).symm
  have h3 : l.dropWhile p =
      ((l.dropWhile p).reverse.dropWhile p).reverse ++
        ((l.dropWhile p).reverse.takeWhile p).reverse := by
    rw [← List.reverse_append, ← h2, List.reverse_reverse]
  apply dropWhile_head_not p l c
  rw [h3]
  cases hm : ((l.dropWhile p).reverse.dropWhile p).reverse with
  | nil => rw [hm] at h; simp at h
  | cons a rest => rw [hm] at h; simpa using h

theorem trim_getLast_not {α : Type} (p : α → Bool) (l : List α) (c : α)
    (h : (((l.dropWhile p).reverse.dropWhile p).reverse).getLast? = some c) : p c = false := by
  rw [List.getLast?_reverse] at h
  exact dropWhile_head_not p _ c h

theorem stringsTrimSpace_decompose (s : String) :
    ∃ pre post, s.data = pre ++ (stringsTrimSpace s).data ++ post ∧
      (∀ c ∈ pre, unicodeIsSpace c = true) ∧ (∀ c ∈ post, unicodeIsSpace c = true) :=
  trim_decompose unicodeIsSpace s.data

theorem stringsTrimSpace_ends (s : String) (c : Char)
    (h : (stringsTrimSpace s).data.head? = some c ∨
      (stringsTrimSpace s).data.getLast? = some c) : unicodeIsSpace c = false := by
  rcases h with h | h
  · exact trim_head_not unicodeIsSpace s.data c h
  · exact trim_getLast_not unicodeIsSpace s.data c h

/-! ## Lemmas on the namespace resolution -/

theorem arrayContains_iff (arr : List String) (s : String) :
    arrayContains arr s = true ↔ s ∈ arr := by
  induction arr with
  | nil => simp [arrayContains]
  | cons a rest ih =>
    unfold arrayContains
    by_cases h : a = s
    · simp [h]
    · simp only [h, if_false, ih, List.mem_cons]
      constructor
      · intro hm; exact Or.inr hm
      · intro hm
        rcases hm with hm | hm
        · exact absurd hm.symm h
        · exact hm

theorem foldl_append_if {α β : Type} (p : α → Bool) (f : α → β) (l : List α) :
    ∀ acc : List β,
      l.foldl (fun acc x => if p x then acc ++ [f x] else acc) acc =
        acc ++ (l.filter p).map f := by
  induction l with
  | nil => intro acc; simp
  | cons x rest ih =>
    intro acc
    simp only [List.foldl_cons]
    rw [ih]
    by_cases h : p x = true
    · simp [h, List.filter_cons]
    · simp [h, List.filter_cons]

theorem validNamespaces_eq (nsItems : List String) :
    validNamespaces nsItems =
      nsItems.filter (fun n => !arrayContains ignoreNamespaces n) := by
  unfold validNamespaces
  have h := foldl_append_if (fun n => !arrayContains ignoreNamespaces n) (fun n => n) nsItems []
  simpa using h

theorem mem_validNamespaces (nsItems : List String) (name : String) :
    name ∈ validNamespaces nsItems ↔ name ∈ nsItems ∧ name ∉ ignoreNamespaces := by
  rw [validNamespaces_eq, List.mem_filter]
  constructor
  · rintro ⟨h1, h2⟩
    refine ⟨h1, fun hm => ?_⟩
    rw [(arrayContains_iff _ _).mpr hm] at h2
    simp at h2
  · rintro ⟨h1, h2⟩
    refine ⟨h1, ?_⟩
    cases hc : arrayContains ignoreNamespaces name with
    | false => rfl
    | true => exact absurd ((arrayContains_iff _ _).mp hc) h2

theorem namespaceList_of_allowList (nsItems : List String) (namespaces : String)
    (h : namespaces ≠ emptyString) :
    namespaceList nsItems namespaces =
      ((stringsSplit namespaces ',').map stringsTrimSpace).filter
        (fun name => arrayContains (validNamespaces nsItems) name) := by
  unfold namespaceList
  simp only [h, ne_eq, not_false_eq_true, if_true]
  have hf := foldl_append_if
    (fun entry => arrayContains (validNamespaces nsItems) (stringsTrimSpace entry))
    stringsTrimSpace (stringsSplit namespaces ',') []
  simp only [List.nil_append] at hf
  rw [hf, List.filter_map]
  rfl

theorem namespaceList_of_empty (nsItems : List String) :
    namespaceList nsItems emptyString = validNamespaces nsItems := by
  simp [namespaceList]

theorem fanOut_loop (l : List String) :
    ∀ acc : FanOut,
      (l.foldl (fun acc ns =>
          { acc with started := acc.started ++ [ns], wgAdds := acc.wgAdds + 1 }) acc).started
        = acc.started ++ l ∧
      (l.foldl (fun acc ns =>
          { acc with started := acc.started ++ [ns], wgAdds := acc.wgAdds + 1 }) acc).wgAdds
        = acc.wgAdds + l.length := by
  induction l with
  | nil => intro acc; simp
  | cons n rest ih =>
    intro acc
    simp only [List.foldl_cons]
    obtain ⟨h1, h2⟩ := ih { acc with started := acc.started ++ [n], wgAdds := acc.wgAdds + 1 }
    rw [h1, h2]
    simp only [List.append_assoc, List.singleton_append, List.length_cons, true_and]
    omega

theorem fanOut_started (l : List String) :
    (fanOut l).started = l ∧ (fanOut l).wgAdds = l.length := by
  unfold fanOut
  by_cases h : l.length > 0
  · simp only [h, if_true]
    have := fanOut_loop l
      { log := [MainLogLine.cleaningUp (String.intercalate "," l)], started := [], wgAdds := 0 }
    simpa using this
  · simp only [h, if_false]
    have h0 : l.length = 0 := by omega
    simp [List.length_eq_zero.mp h0]

theorem isValidTS_iff (cutoffOf : Int → Int → Int) (days now jobTS : Int) :
    isValidTS cutoffOf days now jobTS = true ↔ jobTS < cutoffOf now days := by
  unfold isValidTS
  by_cases h : jobTS < cutoffOf now days <;> simp [h]

theorem carriedTime_of_succeeded (t : Option Int) (job : Job) (h : job.status.succeeded = 1) :
    carriedTime t job = job.status.completionTime := by
  simp [carriedTime, h]

theorem carriedTime_of_failed (t : Option Int) (job : Job) (h1 : job.status.succeeded ≠ 1)
    (h2 : job.status.failed = 1) : carriedTime t job = job.status.startTime := by
  simp [carriedTime, h1, h2]

theorem deletableJobs_nodup (cutoffOf : Int → Int → Int) (clock : Nat → Int) (days : Int) (items : List Job)
    (h : (items.map Job.name).Nodup) : (deletableJobs cutoffOf clock days items).Nodup := by
  rw [deletableJobs_eq_selectedFrom]
  exact List.Nodup.sublist (selectedFrom_sublist cutoffOf clock days items none 0) h

theorem selectLoop_pointer_tests (cutoffOf : Int → Int → Int) (clock : Nat → Int) (days : Int)
    (items : List Job) :
    ∀ s : LoopState,
      (selectLoop cutoffOf clock days s items).t = pointerAfter s.t items ∧
      (selectLoop cutoffOf clock days s items).nowCalls = s.nowCalls + ageTestsIn s.t items := by
  induction items with
  | nil => intro s; simp [selectLoop, pointerAfter, ageTestsIn]
  | cons job rest ih =>
    intro s
    have hstep : selectLoop cutoffOf clock days s (job :: rest) =
        selectLoop cutoffOf clock days (loopBody cutoffOf clock days s job) rest := by
      simp [selectLoop]
    have hp : pointerAfter s.t (job :: rest) = pointerAfter (carriedTime s.t job) rest := by
      simp [pointerAfter]
    rw [hstep, hp, loopBody_deletableJobs]
    obtain ⟨h1, h2⟩ := ih (match carriedTime s.t job with
      | none => { s with t := none }
      | some ts =>
        { t := some ts,
          deletableJobs := s.deletableJobs ++
            (if isValidTS cutoffOf days (clock s.nowCalls) ts then [job.name] else []),
          nowCalls := s.nowCalls + 1 })
    rw [h1, h2]
    cases hc : carriedTime s.t job with
    | none => simp [ageTestsIn, hc]
    | some ts => simp [ageTestsIn, hc]; omega

theorem selectedFrom_append (cutoffOf : Int → Int → Int) (clock : Nat → Int) (days : Int)
    (pre rest : List Job) :
    ∀ (t : Option Int) (k : Nat),
      selectedFrom cutoffOf clock days t k (pre ++ rest) =
        selectedFrom cutoffOf clock days t k pre ++
          selectedFrom cutoffOf clock days (pointerAfter t pre) (k + ageTestsIn t pre) rest := by
  induction pre with
  | nil => intro t k; simp [selectedFrom, pointerAfter, ageTestsIn]
  | cons j pre ih =>
    intro t k
    have hp : pointerAfter t (j :: pre) = pointerAfter (carriedTime t j) pre := by
      simp [pointerAfter]
    rw [hp, List.cons_append]
    simp only [selectedFrom, ageTestsIn]
    cases hc : carriedTime t j with
    | none => simp only [ih none k]
    | some u =>
      have : k + 1 + ageTestsIn (some u) pre = k + (1 + ageTestsIn (some u) pre) := by omega
      simp only [ih (some u) (k + 1), List.append_assoc, this]

theorem mem_deletableJobs_iff (cutoffOf : Int → Int → Int) (clock : Nat → Int) (days : Int)
    (pre post : List Job) (job : Job)
    (hnodup : ((pre ++ job :: post).map Job.name).Nodup) :
    job.name ∈ deletableJobs cutoffOf clock days (pre ++ job :: post) ↔
      ∃ ts, carriedTime (pointerAfter none pre) job = some ts ∧
        ts < cutoffOf (clock (ageTestsIn none pre)) days := by
  rw [List.map_append, List.map_cons, List.nodup_append] at hnodup
  obtain ⟨_, hcons, hdisj⟩ := hnodup
  have hpost : job.name ∉ post.map Job.name := (List.nodup_cons.mp hcons).1
  have hpre : job.name ∉ pre.map Job.name :=
    fun h => hdisj h (List.mem_cons_self _ _)
  have hselpre : ∀ t k, job.name ∉ selectedFrom cutoffOf clock days t k pre :=
    fun t k h => hpre ((selectedFrom_sublist cutoffOf clock days pre t k).subset h)
  have hselpost : ∀ t k, job.name ∉ selectedFrom cutoffOf clock days t k post :=
    fun t k h => hpost ((selectedFrom_sublist cutoffOf clock days post t k).subset h)
  rw [deletableJobs_eq_selectedFrom, selectedFrom_append, List.mem_append, Nat.zero_add]
  simp only [selectedFrom]
  cases hc : carriedTime (pointerAfter none pre) job with
  | none =>
    constructor
    · rintro (h | h)
      · exact absurd h (hselpre _ _)
      · exact absurd h (hselpost _ _)
    · rintro ⟨ts, h, _⟩
      simp at h
  | some u =>
    constructor
    · rintro (h | h)
      · exact absurd h (hselpre _ _)
      · rcases List.mem_append.mp h with h1 | h2
        · by_cases hv : isValidTS cutoffOf days (clock (ageTestsIn none pre)) u = true
          · exact ⟨u, rfl, (isValidTS_iff _ _ _ _).mp hv⟩
          · simp [hv] at h1
        · exact absurd h2 (hselpost _ _)
    · rintro ⟨ts, h, hlt⟩
      have hts : u = ts := Option.some.inj h
      subst hts
      refine Or.inr (List.mem_append_left _ ?_)
      simp [(isValidTS_iff _ _ _ _).mpr hlt]

theorem carriedTime_of_own (job : Job) (ref : Option Int)
    (hstate : (job.status.succeeded = 1 ∧ job.status.completionTime = ref) ∨
      (job.status.succeeded ≠ 1 ∧ job.status.failed = 1 ∧ job.status.startTime = ref))
    (t : Option Int) : carriedTime t job = ref := by
  rcases hstate with ⟨h1, h2⟩ | ⟨h1, h2, h3⟩
  · rw [carriedTime_of_succeeded t job h1, h2]
  · rw [carriedTime_of_failed t job h1 h2, h3]

/-! ## The claims -/

/-- C1, the code at the failing input: with the list A (succeeded, completed 20
days ago), B (succeeded, completed 5 days ago), C (failed, started 30 days ago),
D (running, no counter set), a threshold of 14 days and a process in UTC,
`cleanup` issues the delete calls A, C and D: the running job D is deleted,
because the pointer `t` still holds the start time of C when D is examined. -/
theorem C1_running_job_is_deleted :
    (runningJob "D" 1).status.succeeded = 0 ∧ (runningJob "D" 1).status.failed = 0 ∧
    (cleanup utcCutoff (fun _ => scenarioNow) (fun _ _ => false) 14 "batch"
      { items := scenarioJobs, err := false }).deletes = ["A", "C", "D"] := by
  decide

/-- C2 as stated fails: a job whose success counter is 3 (set, non-zero), with no
pod left running, whose completion time is 20 days old, alone in its namespace,
threshold 14 days, is not passed to the delete call at all. -/
theorem C2_counterexample :
    ([parallelJob "A" 3 20].map Job.name).Nodup ∧
    (parallelJob "A" 3 20).status.succeeded ≠ 0 ∧
    (parallelJob "A" 3 20).status.active = 0 ∧
    (∃ ts, (parallelJob "A" 3 20).status.completionTime = some ts ∧
      ts < utcCutoff scenarioNow 14) ∧
    (cleanup utcCutoff (fun _ => scenarioNow) (fun _ _ => false) 14 "batch"
      { items := [parallelJob "A" 3 20], err := false }).deletes.count "A" = 0 := by
  refine ⟨by decide, by decide, by decide, ⟨scenarioNow - 86400 * 20, rfl, by decide⟩,
    by decide⟩

/-- C2 amended: in a job list with pairwise distinct names, a job in a terminal
state (no pod still running) whose success counter equals 1 and whose completion
time is strictly older than the cutoff, or whose success counter is not 1, whose
failure counter equals 1 and whose start time is strictly older than the cutoff,
has its name passed to the delete call exactly once. The cutoff is the one the
code computes at the age test of that job: that of the clock reading taken
there, in the calendar of the process, whatever that calendar is. -/
theorem C2_old_terminal_job_deleted_once (cutoffOf : Int → Int → Int) (clock : Nat → Int)
    (deleteErr : Nat → String → Bool) (days : Int) (ns : String)
    (pre post : List Job) (job : Job) (err : Bool) (ts : Int)
    (hnodup : ((pre ++ job :: post).map Job.name).Nodup)
    (hterminal : job.status.active = 0)
    (hstate : (job.status.succeeded = 1 ∧ job.status.completionTime = some ts) ∨
      (job.status.succeeded ≠ 1 ∧ job.status.failed = 1 ∧ job.status.startTime = some ts))
    (hold : ts < cutoffOf (clock (ageTestsIn none pre)) days) :
    (cleanup cutoffOf clock deleteErr days ns
      { items := pre ++ job :: post, err := err }).deletes.count job.name = 1 := by
  have _ := hterminal
  rw [cleanup_deletes]
  apply List.count_eq_one_of_mem (deletableJobs_nodup cutoffOf clock days _ hnodup)
  rw [mem_deletableJobs_iff cutoffOf clock days pre post job hnodup,
    carriedTime_of_own job (some ts) hstate]
  exact ⟨ts, rfl, hold⟩

/-- C2 amended, at the scenario on a clock that advances: C (failure counter 1,
started 30 days ago), examined third, is passed to the delete call exactly
once. -/
theorem C2_old_terminal_job_deleted_once_witness :
    (cleanup utcCutoff tickingClock (fun _ _ => false) 14 "batch"
      { items := [succeededJob "A" 20, succeededJob "B" 5] ++
          failedJob "C" 30 :: [runningJob "D" 1],
        err := false }).deletes.count (failedJob "C" 30).name = 1 :=
  C2_old_terminal_job_deleted_once utcCutoff tickingClock (fun _ _ => false) 14 "batch"
    [succeededJob "A" 20, succeededJob "B" 5] [runningJob "D" 1] (failedJob "C" 30) false
    (scenarioNow - 86400 * 30) (by decide) (by decide) (Or.inr ⟨by decide, rfl, rfl⟩)
    (by decide)

/-- C3: whatever the cluster namespaces and the allow-list, no name of
`ignoreNamespaces` ("kube-system", "kube-public") is in the namespace list that
`main` resolves, nor among the namespaces for which the fan-out starts a
`cleanup`. -/
theorem C3_no_protected_namespace (nsItems : List String) (namespaces : String)
    (name : String) (hprot : name ∈ ignoreNamespaces) :
    name ∉ namespaceList nsItems namespaces ∧
    name ∉ (fanOut (namespaceList nsItems namespaces)).started := by
  have hvalid : name ∉ validNamespaces nsItems :=
    fun h => ((mem_validNamespaces nsItems name).mp h).2 hprot
  have hlist : name ∉ namespaceList nsItems namespaces := by
    by_cases he : namespaces = emptyString
    · rw [he, namespaceList_of_empty]
      exact hvalid
    · rw [namespaceList_of_allowList nsItems namespaces he]
      intro hm
      have := (List.mem_filter.mp hm).2
      exact hvalid ((arrayContains_iff _ _).mp this)
  refine ⟨hlist, ?_⟩
  rw [(fanOut_started _).1]
  exact hlist

/-- C3 at an allow-list that names a protected namespace once plainly and once
with surrounding white space. -/
theorem C3_no_protected_namespace_witness :
    "kube-system" ∉ namespaceList ["kube-system", "batch", "kube-public"]
      "kube-system, kube-system ,batch" ∧
    "kube-system" ∉ (fanOut (namespaceList ["kube-system", "batch", "kube-public"]
      "kube-system, kube-system ,batch")).started :=
  C3_no_protected_namespace ["kube-system", "batch", "kube-public"]
    "kube-system, kube-system ,batch" "kube-system" (by decide)

/-- C4: with a non-empty allow-list, a name is in the resolved namespace list
exactly when it is the trimmed form of a comma-separated entry of the allow-list
and a cluster namespace outside `ignoreNamespaces`; with the empty allow-list the
resolved list is the list of the cluster namespaces outside `ignoreNamespaces`,
in order. The allow-list "batch, kube-system, missing-ns" with the cluster
namespaces batch, kube-system, default resolves to the list holding batch only. -/
theorem C4_namespaceList_resolution (nsItems : List String) (namespaces : String) :
    (namespaces ≠ emptyString → ∀ name, name ∈ namespaceList nsItems namespaces ↔
      ((∃ entry ∈ stringsSplit namespaces ',', stringsTrimSpace entry = name) ∧
        name ∈ nsItems ∧ name ∉ ignoreNamespaces)) ∧
    (namespaces = emptyString → namespaceList nsItems namespaces =
      nsItems.filter (fun n => decide (n ∉ ignoreNamespaces))) ∧
    namespaceList ["batch", "kube-system", "default"] "batch, kube-system, missing-ns"
      = ["batch"] := by
  refine ⟨?_, ?_, by decide⟩
  · intro he name
    rw [namespaceList_of_allowList nsItems namespaces he, List.mem_filter, List.mem_map,
      arrayContains_iff, mem_validNamespaces]
  · intro he
    rw [he, namespaceList_of_empty, validNamespaces_eq]
    apply List.filter_congr
    intro n _
    cases hc : arrayContains ignoreNamespaces n with
    | false =>
      have : n ∉ ignoreNamespaces := fun hm => by
        rw [(arrayContains_iff _ _).mpr hm] at hc; simp at hc
      simp [this]
    | true =>
      have : n ∈ ignoreNamespaces := (arrayContains_iff _ _).mp hc
      simp [this]

/-- C4 at the scenario: the members of the list resolved from the allow-list
"batch, kube-system, missing-ns" are characterised as the claim says. -/
theorem C4_namespaceList_resolution_witness :
    ∀ name, name ∈ namespaceList ["batch", "kube-system", "default"]
        "batch, kube-system, missing-ns" ↔
      ((∃ entry ∈ stringsSplit "batch, kube-system, missing-ns" ',',
          stringsTrimSpace entry = name) ∧
        name ∈ ["batch", "kube-system", "default"] ∧ name ∉ ignoreNamespaces) :=
  (C4_namespaceList_resolution ["batch", "kube-system", "default"]
    "batch, kube-system, missing-ns").1 (by decide)

/-- C9 as stated fails: with the single cluster namespace batch and the
allow-list "batch,batch" the resolved list holds batch twice, and the fan-out
starts two `cleanup` invocations for it. -/
theorem C9_counterexample :
    (["batch"] : List String).Nodup ∧
    namespaceList ["batch"] "batch,batch" = ["batch", "batch"] ∧
    ¬ (namespaceList ["batch"] "batch,batch").Nodup ∧
    (fanOut (namespaceList ["batch"] "batch,batch")).started = ["batch", "batch"] := by
  decide

/-- C9 amended: the fan-out starts one `cleanup` invocation per element of the
resolved list, in order; and when the cluster namespaces are distinct and the
allow-list is empty or the trimmed forms of its comma-separated entries are
pairwise distinct, no name occurs in the resolved list more than once. -/
theorem C9_namespaceList_nodup (nsItems : List String) (namespaces : String) :
    (fanOut (namespaceList nsItems namespaces)).started = namespaceList nsItems namespaces ∧
    (fanOut (namespaceList nsItems namespaces)).wgAdds =
      (namespaceList nsItems namespaces).length ∧
    (nsItems.Nodup →
      (namespaces = emptyString ∨
        ((stringsSplit namespaces ',').map stringsTrimSpace).Nodup) →
      (namespaceList nsItems namespaces).Nodup) := by
  refine ⟨(fanOut_started _).1, (fanOut_started _).2, ?_⟩
  intro hitems hallow
  by_cases he : namespaces = emptyString
  · rw [he, namespaceList_of_empty, validNamespaces_eq]
    exact List.Nodup.filter _ hitems
  · rcases hallow with h | h
    · exact absurd h he
    · rw [namespaceList_of_allowList nsItems namespaces he]
      exact List.Nodup.filter _ h

/-- C9 amended, at an allow-list with distinct entries. -/
theorem C9_namespaceList_nodup_witness :
    (namespaceList ["batch", "default", "kube-system"] "batch, default").Nodup :=
  (C9_namespaceList_nodup ["batch", "default", "kube-system"] "batch, default").2.2
    (by decide) (Or.inr (by decide))

/-- C5, the code at the failing input: B has its success counter set (3
succeeded pods, none running) and completed 5 days ago, which is not older than
the cutoff of 14 days; listed after A (success counter 1, completed 20 days ago)
it is passed to the delete call all the same: it matches neither counter test,
so it is examined with the completion time of A that the pointer `t` still
holds. -/
theorem C5_young_succeeded_job_is_deleted :
    (parallelJob "B" 3 5).status.succeeded ≠ 0 ∧
    (parallelJob "B" 3 5).status.active = 0 ∧
    (∃ ts, (parallelJob "B" 3 5).status.completionTime = some ts ∧
      ¬ ts < utcCutoff scenarioNow 14) ∧
    (cleanup utcCutoff (fun _ => scenarioNow) (fun _ _ => false) 14 "batch"
      { items := [succeededJob "A" 20, parallelJob "B" 3 5], err := false }).deletes
      = ["A", "B"] := by
  refine ⟨by decide, by decide, ⟨scenarioNow - 86400 * 5, rfl, by decide⟩, by decide⟩

/-- C6: when every delete call of a first pass succeeds, a second pass with the
same cutoff over the jobs that remain (the listed jobs, in order, without the
deleted ones) selects no job and issues no delete call. Distinct job names are
not needed for it, and the calendar of the process is arbitrary. -/
theorem C6_cleanup_idempotent (cutoffOf : Int → Int → Int) (now days : Int) (ns : String)
    (items : List Job) (err1 err2 : Bool) (deleteErr1 deleteErr2 : Nat → String → Bool)
    (hok : ∀ k n, deleteErr1 k n = false) :
    (cleanup cutoffOf (fun _ => now) deleteErr2 days ns
      { items := remainingJobs items
          (cleanup cutoffOf (fun _ => now) deleteErr1 days ns { items := items, err := err1 }),
        err := err2 }).deletableJobs = [] ∧
    (cleanup cutoffOf (fun _ => now) deleteErr2 days ns
      { items := remainingJobs items
          (cleanup cutoffOf (fun _ => now) deleteErr1 days ns { items := items, err := err1 }),
        err := err2 }).deletes = [] := by
  have hdel := cleanup_deletedJobs cutoffOf (fun _ => now) deleteErr1 days ns
    { items := items, err := err1 } hok
  have hkey : selectedFrom cutoffOf (fun _ => now) days none 0
      (remainingJobs items
        (cleanup cutoffOf (fun _ => now) deleteErr1 days ns
          { items := items, err := err1 })) = [] := by
    apply selectedFrom_eq_nil
    · intro ts h; simp at h
    · intro job hjob t1 ht1
      unfold remainingJobs at hjob
      obtain ⟨hin, hnot⟩ := List.mem_filter.mp hjob
      rw [hdel] at hnot
      have hnot2 : job.name ∉ deletableJobs cutoffOf (fun _ => now) days items := by
        simpa using hnot
      rw [deletableJobs_eq_selectedFrom] at hnot2
      have hfresh : ∀ ts, (∀ t, carriedTime t job = some ts) →
          isValidTS cutoffOf days now ts = false := by
        intro ts hown
        cases hv : isValidTS cutoffOf days now ts with
        | false => rfl
        | true =>
          exact absurd (selectedFrom_mem_of_own cutoffOf (fun _ => now) days job ts hown
            (fun _ => hv) items none 0 hin) hnot2
      intro ts hts k
      by_cases h1 : job.status.succeeded = 1
      · exact hfresh ts (fun t => by
          rw [carriedTime_of_succeeded t job h1, ← hts, carriedTime_of_succeeded t1 job h1])
      · by_cases h2 : job.status.failed = 1
        · exact hfresh ts (fun t => by
            rw [carriedTime_of_failed t job h1 h2, ← hts, carriedTime_of_failed t1 job h1 h2])
        · have : carriedTime t1 job = t1 := by simp [carriedTime, h1, h2]
          rw [this] at hts
          exact ht1 ts hts k
  rw [cleanup_deletableJobs, cleanup_deletes, deletableJobs_eq_selectedFrom]
  exact ⟨hkey, hkey⟩

/-- C6 at the scenario: after a first pass whose deletes all succeed, a second
pass over the remaining jobs issues no delete call. -/
theorem C6_cleanup_idempotent_witness :
    (cleanup utcCutoff (fun _ => scenarioNow) (fun _ _ => true) 14 "batch"
      { items := remainingJobs scenarioJobs
          (cleanup utcCutoff (fun _ => scenarioNow) (fun _ _ => false) 14 "batch"
            { items := scenarioJobs, err := false }),
        err := false }).deletes = [] :=
  (C6_cleanup_idempotent utcCutoff scenarioNow 14 "batch" scenarioJobs false false
    (fun _ _ => false) (fun _ _ => true) (fun _ _ => rfl)).2

/-- C7: the delete calls `cleanup` issues are the selected job names, each
once and in the order of selection, which is the order of the job list; they
are the same whatever the outcomes of the individual delete calls. -/
theorem C7_delete_calls_independent_of_outcomes (cutoffOf : Int → Int → Int)
    (clock : Nat → Int) (days : Int) (ns : String) (listed : ListResult) (deleteErr1 deleteErr2 : Nat → String → Bool) :
    (cleanup cutoffOf clock deleteErr1 days ns listed).deletes =
      (cleanup cutoffOf clock deleteErr1 days ns listed).deletableJobs ∧
    (cleanup cutoffOf clock deleteErr1 days ns listed).deletes =
      (cleanup cutoffOf clock deleteErr2 days ns listed).deletes ∧
    List.Sublist (cleanup cutoffOf clock deleteErr1 days ns listed).deletes
      (listed.items.map Job.name) := by
  refine ⟨?_, ?_, ?_⟩
  · rw [cleanup_deletes, cleanup_deletableJobs]
  · rw [cleanup_deletes, cleanup_deletes]
  · rw [cleanup_deletes, deletableJobs_eq_selectedFrom]
    exact selectedFrom_sublist cutoffOf clock days listed.items none 0

/-- C8 as stated fails: on a clock that advances one second per reading, B
(completed exactly at the first reading's cutoff) is selected, because it is
compared with the cutoff of the second reading; with the first reading's cutoff
applied to all jobs only A is selected. -/
theorem C8_counterexample :
    deletableJobs utcCutoff tickingClock 14 [succeededJob "A" 20, succeededJob "B" 14]
      = ["A", "B"] ∧
    deletableJobs utcCutoff (fun _ => tickingClock 0) 14
      [succeededJob "A" 20, succeededJob "B" 14] = ["A"] := by
  decide

/-- C8 amended: the cutoff is computed anew at each age test, from the clock
reading taken at that test. In a job list with distinct names, a job in a
terminal state with a counter equal to 1 (reference time: the completion time
when the success counter is 1, else the start time) is selected exactly when its
reference time exists and is strictly less than the cutoff of reading number
`k` of the pass, `k` being the number of age tests made on the jobs listed before
it. When the readings of the pass, at most one per job, all equal the first,
the selection is the one made with the first reading's cutoff for all jobs. -/
theorem C8_cutoff_per_age_test (cutoffOf : Int → Int → Int) (clock : Nat → Int) (days : Int)
    (pre post : List Job) (job : Job) (ref : Option Int)
    (hnodup : ((pre ++ job :: post).map Job.name).Nodup)
    (hterminal : job.status.active = 0)
    (hstate : (job.status.succeeded = 1 ∧ job.status.completionTime = ref) ∨
      (job.status.succeeded ≠ 1 ∧ job.status.failed = 1 ∧ job.status.startTime = ref)) :
    (job.name ∈ deletableJobs cutoffOf clock days (pre ++ job :: post) ↔
      ∃ ts, ref = some ts ∧ ts < cutoffOf (clock (ageTestsIn none pre)) days) ∧
    ((∀ k, k < (pre ++ job :: post).length → clock k = clock 0) →
      deletableJobs cutoffOf clock days (pre ++ job :: post) =
        deletableJobs cutoffOf (fun _ => clock 0) days (pre ++ job :: post)) := by
  have _ := hterminal
  refine ⟨?_, ?_⟩
  · rw [mem_deletableJobs_iff cutoffOf clock days pre post job hnodup,
      carriedTime_of_own job ref hstate]
  · intro hsame
    rw [deletableJobs_eq_selectedFrom, deletableJobs_eq_selectedFrom]
    apply selectedFrom_congr
    intro i _ hi
    exact hsame i (by omega)

/-- C8 amended, at two passes over A (completed 20 days ago) and B (completed
exactly 14 days before the first reading). On the clock that advances one
second per reading, B is selected exactly when its completion time is below the
cutoff of the second reading, number 1, the one taken at its own test; on a
clock whose first two readings are equal the selection is that of the first
reading's cutoff. -/
theorem C8_cutoff_per_age_test_witness :
    ((succeededJob "B" 14).name ∈
        deletableJobs utcCutoff tickingClock 14
          ([succeededJob "A" 20] ++ succeededJob "B" 14 :: []) ↔
      ∃ ts, (succeededJob "B" 14).status.completionTime = some ts ∧
        ts < utcCutoff (tickingClock (ageTestsIn none [succeededJob "A" 20])) 14) ∧
    deletableJobs utcCutoff (fun k => if k < 2 then scenarioNow else scenarioNow + 86400) 14
        ([succeededJob "A" 20] ++ succeededJob "B" 14 :: []) =
      deletableJobs utcCutoff
        (fun _ => (fun k => if k < 2 then scenarioNow else scenarioNow + 86400) 0) 14
        ([succeededJob "A" 20] ++ succeededJob "B" 14 :: []) :=
  ⟨(C8_cutoff_per_age_test utcCutoff tickingClock 14 [succeededJob "A" 20] []
      (succeededJob "B" 14) (succeededJob "B" 14).status.completionTime
      (by decide) (by decide) (Or.inl ⟨rfl, rfl⟩)).1,
   (C8_cutoff_per_age_test utcCutoff
      (fun k => if k < 2 then scenarioNow else scenarioNow + 86400) 14
      [succeededJob "A" 20] [] (succeededJob "B" 14)
      (succeededJob "B" 14).status.completionTime
      (by decide) (by decide) (Or.inl ⟨rfl, rfl⟩)).2
      (fun k hk => by
        have hk2 : k < 2 := hk
        simp [hk2])⟩

/-- C10, the code at the failing input: the job-list call returns an error
together with a list holding A (succeeded, completed 20 days ago); `cleanup`
logs the error and goes on: it selects A and issues the delete call for it. -/
theorem C10_failed_list_still_prunes :
    cleanup utcCutoff (fun _ => scenarioNow) (fun _ _ => false) 14 "batch"
      { items := [succeededJob "A" 20], err := true } =
    { log := [LogLine.fetching "batch", LogLine.listFailed "batch", LogLine.listError,
              LogLine.canDelete 1 "batch", LogLine.deleted "A" "batch"],
      deletableJobs := ["A"], deletes := ["A"], wgDone := true } := by
  decide

end EksJobsCleaner
